import Mathlib

/-!
A verification development for the libpak dependency-resolution,
artifact-cache, archive-extraction and file-listing core.

The Go sources are shallowly embedded as executable Lean definitions:

* `libpak.DependencyResolver.resolve` / `.any` model `buildpack.go`
  (`Resolve`, `Any`, `contains`), including the semantics of the
  third-party Masterminds `semver/v3` library (version parsing,
  version comparison and a faithful executable subset of constraint
  parsing) that `Resolve` calls into.
* `libpak.DependencyCache.artifact` models `dependency_cache.go`
  (`Artifact`, `download`, `verify`) over an explicit file-system
  state; the SHA-256 function is an abstract parameter producing a
  hex string, and the network is an abstract map from URI to bytes.
* `crush.extractTar` / `crush.Crush.strippedPath` model `layer.go`
  (`ExtractTar`, `strippedPath`) over an explicit file-system state.
* `sherpa.newFileListing` models `NewFileListing`; the concurrent
  fan-out is modelled by the order of the walk list, which the
  determinism lemmas quantify over.

Machine integers do not overflow anywhere on the modelled paths, and
character-level string processing is done on `List Char` so every
definition evaluates by `decide`/`rfl`.
-/

namespace spec2proof

/-! ### Character-list string utilities (Go `strings` / `path/filepath`) -/

/-- Bytes of a file, abstractly. -/
abbrev Content := List Nat

/-- Split a character list at every occurrence of `sep`, like Go
`strings.Split` on a one-character separator. -/
def splitChar (sep : Char) : List Char → List (List Char)
  | [] => [[]]
  | c :: cs =>
    match splitChar sep cs with
    | [] => if c = sep then [[], []] else [[c]]
    | p :: ps => if c = sep then [] :: p :: ps else (c :: p) :: ps

/-- `strings.Split s sep` for a one-character separator, as `String`s. -/
def strSplit (sep : Char) (s : String) : List String :=
  (splitChar sep s.data).map String.mk

/-- Join character lists with a separator character (Go `strings.Join`). -/
def joinChar (sep : Char) : List (List Char) → List Char
  | [] => []
  | [p] => p
  | p :: ps => p ++ sep :: joinChar sep ps

theorem splitChar_ne_nil (sep : Char) (cs : List Char) : splitChar sep cs ≠ [] := by
  cases cs with
  | nil => simp [splitChar]
  | cons c cs =>
    simp only [splitChar]
    split <;> split <;> simp

/-! ### Go `path/filepath` functions (`Clean`, `Join`, `Base`, `Dir`) -/

/-- One step of the `filepath.Clean` element loop: push a normal component,
drop empty and `.` components, and let `..` pop the newest component
(except past the root, or past an initial run of `..` in a relative path).
The stack holds components newest-first. -/
def cleanStep (rooted : Bool) (stack : List String) (comp : String) : List String :=
  if comp = "" ∨ comp = "." then stack
  else if comp = ".." then
    match stack with
    | top :: rest => if top = ".." then comp :: stack else rest
    | [] => if rooted then [] else [".."]
  else comp :: stack

/-- Go `filepath.Clean` (on a Unix separator). -/
def goClean (path : String) : String :=
  if path = "" then "." else
  let rooted := path.data.head? = some '/'
  let comps := strSplit '/' path
  let stack := comps.foldl (cleanStep rooted) []
  let body := String.mk (joinChar '/' ((stack.reverse).map String.data))
  if rooted then String.mk ('/' :: body.data)
  else if body = "" then "." else body

/-- Go `filepath.Join`: drop leading empty elements, join the rest with the
separator and `Clean` the result. -/
def goJoin (elems : List String) : String :=
  match elems.dropWhile (fun e => e = "") with
  | [] => ""
  | es => goClean (String.mk (joinChar '/' (es.map String.data)))

/-- Go `filepath.Base`: the last element of the path after trailing
separators are removed. -/
def goBase (path : String) : String :=
  if path = "" then "." else
  let cs := (path.data.reverse.dropWhile (fun c => c = '/')).reverse
  if cs = [] then "/" else
  String.mk ((cs.reverse.takeWhile (fun c => c ≠ '/')).reverse)

/-- Go `filepath.Dir`: everything before the final separator, cleaned. -/
def goDir (path : String) : String :=
  let cs := path.data
  let pre := (cs.reverse.dropWhile (fun c => c ≠ '/')).reverse
  goClean (String.mk pre)

example : goClean "a//b/" = "a/b" := by decide
example : goClean "" = "." := by decide
example : goClean "/../a" = "/a" := by decide
example : goClean "a/../../b" = "../b" := by decide
example : goJoin ["destination", "b", "c.txt"] = "destination/b/c.txt" := by decide
example : goJoin ["", "a", "b"] = "a/b" := by decide
example : goBase "http://host/test-path" = "test-path" := by decide
example : goBase "/a/b/" = "b" := by decide
example : goDir "/dl/sha/f.tgz" = "/dl/sha" := by decide

/-! ### Lawful comparison functions

The Masterminds semver comparison is a total preorder given by an
`Ordering`-valued function.  `CmpLaws` packages the three laws every
comparator in this development satisfies; they are exactly what is needed
to show that the head of a sorted candidate list is a maximum. -/

/-- Laws of a total-preorder comparator. -/
structure CmpLaws {α : Type _} (c : α → α → Ordering) : Prop where
  symm : ∀ a b, c a b = (c b a).swap
  eq_left : ∀ a b d, c a b = .eq → c a d = c b d
  le_trans : ∀ a b d, c a b ≠ .lt → c b d ≠ .lt → c a d ≠ .lt

namespace CmpLaws

variable {α : Type _} {β : Type _} {c : α → α → Ordering}

theorem refl (h : CmpLaws c) (a : α) : c a a = .eq := by
  have := h.symm a a
  cases hc : c a a <;> rw [hc] at this <;> simp [Ordering.swap] at this <;> simp_all

theorem lt_swap (h : CmpLaws c) {a b : α} (hab : c a b = .lt) : c b a = .gt := by
  have := h.symm b a
  rw [hab] at this
  simpa [Ordering.swap] using this

theorem gt_swap (h : CmpLaws c) {a b : α} (hab : c a b = .gt) : c b a = .lt := by
  have := h.symm b a
  rw [hab] at this
  simpa [Ordering.swap] using this

theorem eq_swap (h : CmpLaws c) {a b : α} (hab : c a b = .eq) : c b a = .eq := by
  have := h.symm b a
  rw [hab] at this
  simpa [Ordering.swap] using this

theorem eq_right (h : CmpLaws c) (a b d : α) (hab : c a b = .eq) : c d a = c d b := by
  rw [h.symm d a, h.eq_left a b d hab, h.symm b d]
  cases c d b <;> simp [Ordering.swap]

theorem total (h : CmpLaws c) (a b : α) : c a b ≠ .lt ∨ c b a ≠ .lt := by
  cases hc : c a b with
  | lt => exact Or.inr (by simp [h.lt_swap hc])
  | eq => exact Or.inl (by simp [hc])
  | gt => exact Or.inl (by simp [hc])

theorem gt_ge_trans (h : CmpLaws c) {a b d : α} (hab : c a b = .gt)
    (hbd : c b d ≠ .lt) : c a d = .gt := by
  cases had : c a d with
  | gt => rfl
  | eq =>
    exfalso
    have := h.eq_left a d b had
    rw [hab] at this
    exact hbd (h.gt_swap this.symm)
  | lt =>
    exfalso
    have hda : c d a = .gt := h.lt_swap had
    have hdb : c d b ≠ .lt :=
      h.le_trans d a b (by simp [hda]) (by simp [hab])
    cases hdb2 : c d b with
    | lt => exact hdb hdb2
    | gt => exact hbd (h.gt_swap hdb2)
    | eq =>
      have := h.eq_left d b a hdb2
      rw [hda] at this
      exact absurd (h.gt_swap this.symm) (by simp [hab])

/-- Compare through a projection. -/
def cmpOn (f : β → α) (c : α → α → Ordering) (a b : β) : Ordering := c (f a) (f b)

theorem comp (h : CmpLaws c) (f : β → α) : CmpLaws (cmpOn f c) where
  symm a b := h.symm (f a) (f b)
  eq_left a b d hab := h.eq_left (f a) (f b) (f d) hab
  le_trans a b d hab hbd := h.le_trans (f a) (f b) (f d) hab hbd

end CmpLaws

/-- Lexicographic combination of two comparators (`Ordering.then`). -/
def cmpLex {α : Type _} (c₁ c₂ : α → α → Ordering) (a b : α) : Ordering :=
  (c₁ a b).then (c₂ a b)

theorem CmpLaws.lex {α : Type _} {c₁ c₂ : α → α → Ordering}
    (h₁ : CmpLaws c₁) (h₂ : CmpLaws c₂) : CmpLaws (cmpLex c₁ c₂) where
  symm a b := by
    unfold cmpLex
    rw [h₁.symm a b, h₂.symm a b]
    cases c₁ b a <;> simp [Ordering.swap, Ordering.then]
  eq_left a b d hab := by
    unfold cmpLex at hab ⊢
    cases h1 : c₁ a b <;> rw [h1] at hab <;> simp [Ordering.then] at hab
    rw [h₁.eq_left a b d h1, h₂.eq_left a b d hab]
  le_trans a b d hab hbd := by
    unfold cmpLex at hab hbd ⊢
    cases h1 : c₁ a b <;> rw [h1] at hab <;> simp [Ordering.then] at hab
    · -- c₁ a b = eq
      cases h2 : c₁ b d <;> rw [h2] at hbd <;> simp [Ordering.then] at hbd
      · -- c₁ b d = eq
        rw [h₁.eq_left a b d h1, h2]
        simpa [Ordering.then] using h₂.le_trans a b d hab hbd
      · -- c₁ b d = gt
        rw [h₁.eq_left a b d h1, h2]
        simp [Ordering.then]
    · -- c₁ a b = gt
      have h2 : c₁ b d ≠ .lt := by
        intro hc
        rw [hc] at hbd
        simp [Ordering.then] at hbd
      rw [h₁.gt_ge_trans h1 h2]
      simp [Ordering.then]

/-- Go-style numeric comparison on `Nat`. -/
def cmpNat (a b : Nat) : Ordering :=
  if a < b then .lt else if b < a then .gt else .eq

theorem cmpNat_laws : CmpLaws cmpNat where
  symm a b := by
    unfold cmpNat
    rcases Nat.lt_trichotomy a b with h | h | h
    · simp [h, Nat.lt_asymm h, Ordering.swap]
    · simp [h, Nat.lt_irrefl, Ordering.swap]
    · simp [h, Nat.lt_asymm h, Ordering.swap]
  eq_left a b d hab := by
    unfold cmpNat at hab
    have : a = b := by
      by_cases h1 : a < b <;> by_cases h2 : b < a <;> simp [h1, h2] at hab <;> omega
    rw [this]
  le_trans a b d hab hbd := by
    unfold cmpNat at hab hbd ⊢
    by_cases h1 : a < b <;> by_cases h2 : b < d <;> simp_all <;> omega

/-- Lexicographic list comparison, shorter prefix first (semver identifier
list precedence). -/
def cmpList {α : Type _} (c : α → α → Ordering) : List α → List α → Ordering
  | [], [] => .eq
  | [], _ :: _ => .lt
  | _ :: _, [] => .gt
  | a :: as, b :: bs => (c a b).then (cmpList c as bs)

theorem cmpList_laws {α : Type _} {c : α → α → Ordering} (h : CmpLaws c) :
    CmpLaws (cmpList c) where
  symm a b := by
    induction a generalizing b with
    | nil => cases b <;> simp [cmpList, Ordering.swap]
    | cons x xs ih =>
      cases b with
      | nil => simp [cmpList, Ordering.swap]
      | cons y ys =>
        simp only [cmpList]
        rw [h.symm x y, ih ys]
        cases c y x <;> simp [Ordering.swap, Ordering.then]
  eq_left a b d hab := by
    induction a generalizing b d with
    | nil =>
      cases b with
      | nil => rfl
      | cons y ys => simp [cmpList] at hab
    | cons x xs ih =>
      cases b with
      | nil => simp [cmpList] at hab
      | cons y ys =>
        simp only [cmpList] at hab
        cases h1 : c x y <;> rw [h1] at hab <;> simp [Ordering.then] at hab
        cases d with
        | nil => simp [cmpList]
        | cons z zs =>
          simp only [cmpList]
          rw [h.eq_left x y z h1, ih ys zs hab]
  le_trans a b d hab hbd := by
    induction a generalizing b d with
    | nil =>
      cases b with
      | nil => exact hbd
      | cons y ys => simp [cmpList] at hab
    | cons x xs ih =>
      cases b with
      | nil =>
        cases d with
        | nil => simp [cmpList]
        | cons z zs => simp [cmpList] at hbd
      | cons y ys =>
        cases d with
        | nil => simp [cmpList]
        | cons z zs =>
          simp only [cmpList] at hab hbd ⊢
          cases h1 : c x y <;> rw [h1] at hab <;> simp [Ordering.then] at hab
          · -- c x y = eq
            cases h2 : c y z <;> rw [h2] at hbd <;> simp [Ordering.then] at hbd
            · rw [h.eq_left x y z h1, h2]
              simpa [Ordering.then] using ih ys zs hab hbd
            · rw [h.eq_left x y z h1, h2]
              simp [Ordering.then]
          · -- c x y = gt
            have h2 : c y z ≠ .lt := by
              intro hc
              rw [hc] at hbd
              simp [Ordering.then] at hbd
            rw [h.gt_ge_trans h1 h2]
            simp [Ordering.then]

/-! ### Masterminds `semver/v3`: versions

`semver.NewVersion` (the lenient constructor used by `Resolve`) accepts an
optional `v` prefix, one to three dot-separated numeric components (missing
components default to zero), an optional `-` pre-release of dot-separated
`[0-9A-Za-z-]` identifiers, and an optional `+` build-metadata suffix which
is ignored for precedence.  Numeric overflow of 64-bit integers is not
modelled (`Nat` is unbounded), and a pre-release identifier counts as
numeric when it consists solely of digits. -/

/-- A parsed semantic version.  `pre` is the list of pre-release
identifiers (empty for a release); build metadata does not participate in
comparison and is dropped at parse time. -/
structure SemVer where
  major : Nat
  minor : Nat
  patch : Nat
  pre : List (List Char)
  deriving DecidableEq, Repr, Inhabited

/-- A `[0-9A-Za-z-]` identifier character. -/
def isIdentChar (c : Char) : Bool :=
  c.isDigit || c.isAlpha || c = '-'

/-- Numeric value of an all-digit identifier, `none` otherwise
(Go `strconv.ParseInt` on the identifier). -/
def toNum (cs : List Char) : Option Nat :=
  if cs ≠ [] ∧ cs.all Char.isDigit then
    some (cs.foldl (fun n c => n * 10 + (c.toNat - 48)) 0)
  else none

/-- Dot-separated nonempty identifier sequence (pre-release / metadata). -/
def parseIdents (cs : List Char) : Option (List (List Char)) :=
  let parts := splitChar '.' cs
  if parts.all (fun p => p ≠ [] ∧ p.all isIdentChar) then some parts else none

/-- The numeric `major[.minor[.patch]]` core; `exact3` demands all three
components to be explicit (used for constraint versions, whose partial
forms would enable wildcard semantics not modelled here). -/
def parseCore (cs : List Char) (exact3 : Bool) : Option (Nat × Nat × Nat) :=
  let parts := splitChar '.' cs
  match parts.mapM toNum with
  | none => none
  | some ns =>
    match ns with
    | [a] => if exact3 then none else some (a, 0, 0)
    | [a, b] => if exact3 then none else some (a, b, 0)
    | [a, b, c] => some (a, b, c)
    | _ => none

/-- Shared body of `semver.NewVersion`. -/
def parseSemVer (exact3 : Bool) (s : String) : Option SemVer :=
  let cs := match s.data with
    | 'v' :: rest => rest
    | cs => cs
  let withMeta := splitChar '+' cs
  match withMeta with
  | [main] => parseMain main exact3
  | [main, meta] =>
    match parseIdents meta with
    | some _ => parseMain main exact3
    | none => none
  | _ => none
where
  /-- `core[-prerelease]`: the pre-release starts at the first `-`. -/
  parseMain (main : List Char) (exact3 : Bool) : Option SemVer :=
    match splitChar '-' main with
    | [] => none
    | [core] =>
      match parseCore core exact3 with
      | some (a, b, c) => some ⟨a, b, c, []⟩
      | none => none
    | core :: p :: ps =>
      match parseCore core exact3, parseIdents (joinChar '-' (p :: ps)) with
      | some (a, b, c), some pre => some ⟨a, b, c, pre⟩
      | _, _ => none

/-- `semver.NewVersion` (lenient). -/
def newVersion (s : String) : Option SemVer := parseSemVer false s

example : newVersion "11.0.2" = some ⟨11, 0, 2, []⟩ := by decide
example : newVersion "v1.2" = some ⟨1, 2, 0, []⟩ := by decide
example : newVersion "1.2.3-beta.1+b42" = some ⟨1, 2, 3, [['b','e','t','a'], ['1']]⟩ := by decide
example : newVersion "" = none := by decide
example : newVersion "1.2.3.4" = none := by decide
example : newVersion "not-a-version" = none := by decide

/-! ### Masterminds `semver/v3`: comparison (`Version.Compare`) -/

/-- Character comparison by code point (byte order and code-point order
agree on the ASCII identifier alphabet). -/
def cmpChar (a b : Char) : Ordering := cmpNat a.toNat b.toNat

/-- One pre-release identifier against another (`comparePrePart`): two
numeric identifiers compare by value, a numeric identifier is lower than
an alphanumeric one, and two alphanumeric identifiers compare as strings. -/
def cmpIdent (s o : List Char) : Ordering :=
  match toNum s, toNum o with
  | some a, some b => cmpNat a b
  | some _, none => .lt
  | none, some _ => .gt
  | none, none => cmpList cmpChar s o

/-- Pre-release comparison (`comparePrerelease` plus the rule that a
release outranks every pre-release). -/
def cmpPre (a b : List (List Char)) : Ordering :=
  match a, b with
  | [], [] => .eq
  | [], _ :: _ => .gt
  | _ :: _, [] => .lt
  | a, b => cmpList cmpIdent a b

/-- `Version.Compare`: major, minor, patch numerically, then pre-release
precedence. -/
def cmpV : SemVer → SemVer → Ordering :=
  cmpLex (CmpLaws.cmpOn SemVer.major cmpNat)
    (cmpLex (CmpLaws.cmpOn SemVer.minor cmpNat)
      (cmpLex (CmpLaws.cmpOn SemVer.patch cmpNat)
        (CmpLaws.cmpOn SemVer.pre cmpPre)))

theorem cmpChar_laws : CmpLaws cmpChar := cmpNat_laws.comp Char.toNat

theorem cmpNat_eq {a b : Nat} (h : cmpNat a b = .eq) : a = b := by
  unfold cmpNat at h
  by_cases h1 : a < b <;> by_cases h2 : b < a <;> simp [h1, h2] at h <;> omega

theorem cmpIdent_laws : CmpLaws cmpIdent where
  symm s o := by
    unfold cmpIdent
    cases toNum s <;> cases toNum o
    · exact (cmpList_laws cmpChar_laws).symm s o
    · rfl
    · rfl
    · exact cmpNat_laws.symm _ _
  eq_left s o d hso := by
    unfold cmpIdent at hso ⊢
    cases hs : toNum s <;> cases ho : toNum o <;> rw [hs, ho] at hso <;> simp at hso
    · -- both alphanumeric
      cases toNum d
      · simp [(cmpList_laws cmpChar_laws).eq_left s o d hso]
      · rfl
    · -- both numeric, equal values
      cases toNum d
      · rfl
      · simp [cmpNat_eq hso]
  le_trans s o d hso hod := by
    unfold cmpIdent at hso hod ⊢
    cases hs : toNum s <;> cases ho : toNum o <;> cases hd : toNum d <;>
        rw [hs, ho] at hso <;> rw [ho, hd] at hod
    · exact (cmpList_laws cmpChar_laws).le_trans s o d hso hod
    · exact fun h => Ordering.noConfusion h
    · exact absurd rfl hod
    · exact fun h => Ordering.noConfusion h
    · exact absurd rfl hso
    · exact absurd rfl hso
    · exact absurd rfl hod
    · exact cmpNat_laws.le_trans _ _ _ hso hod

theorem cmpPre_laws : CmpLaws cmpPre where
  symm a b := by
    cases a with
    | nil => cases b <;> simp [cmpPre, Ordering.swap]
    | cons x xs =>
      cases b with
      | nil => simp [cmpPre, Ordering.swap]
      | cons y ys =>
        simpa [cmpPre] using (cmpList_laws cmpIdent_laws).symm (x :: xs) (y :: ys)
  eq_left a b d hab := by
    cases a with
    | nil =>
      cases b with
      | nil => rfl
      | cons y ys => simp [cmpPre] at hab
    | cons x xs =>
      cases b with
      | nil => simp [cmpPre] at hab
      | cons y ys =>
        simp only [cmpPre] at hab
        cases d with
        | nil => rfl
        | cons z zs =>
          simpa [cmpPre] using
            (cmpList_laws cmpIdent_laws).eq_left (x :: xs) (y :: ys) (z :: zs) hab
  le_trans a b d hso hod := by
    cases a with
    | nil =>
      cases b with
      | nil => exact hod
      | cons y ys =>
        cases d with
        | nil => exact absurd rfl hod
        | cons z zs => simp [cmpPre]
    | cons x xs =>
      cases b with
      | nil => exact absurd rfl hso
      | cons y ys =>
        cases d with
        | nil => exact absurd rfl hod
        | cons z zs =>
          simp only [cmpPre] at hso hod ⊢
          exact (cmpList_laws cmpIdent_laws).le_trans (x :: xs) (y :: ys) (z :: zs) hso hod

theorem cmpV_laws : CmpLaws cmpV :=
  (cmpNat_laws.comp SemVer.major).lex
    ((cmpNat_laws.comp SemVer.minor).lex
      ((cmpNat_laws.comp SemVer.patch).lex (cmpPre_laws.comp SemVer.pre)))

example : cmpV ⟨10, 0, 0, []⟩ ⟨9, 0, 0, []⟩ = .gt := by decide
example : cmpV ⟨1, 0, 0, [['a']]⟩ ⟨1, 0, 0, []⟩ = .lt := by decide
example : cmpV ⟨1, 0, 0, [['2']]⟩ ⟨1, 0, 0, [['1','0']]⟩ = .lt := by decide
example : cmpV ⟨1, 0, 0, [['9','9']]⟩ ⟨1, 0, 0, [['a']]⟩ = .lt := by decide

/-! ### Masterminds `semver/v3`: constraints

`semver.NewConstraint` splits the expression on `||` into alternatives;
each alternative is a conjunction of `<op><version>` units.  The model
implements the comparison operators (`=`, `!=`, `>`, `>=`, `=>`, `<`,
`<=`, `=<`, and the bare-version form meaning equality) on fully explicit
`major.minor.patch` versions plus the bare wildcard `*`/`x`/`X`; partial
or embedded wildcards and the `~`/`^` range operators are outside the
modelled subset, and expressions using them fail to parse here.  As in
the library, a version carrying a pre-release satisfies a unit only when
the unit's own version carries a pre-release. -/

/-- A comparison operator of a constraint unit. -/
inductive COp
  | ceq | cne | cgt | cge | clt | cle
  deriving DecidableEq, Repr

/-- One constraint unit: a bare wildcard or an operator with a version. -/
inductive CUnit
  | star
  | cmp (op : COp) (v : SemVer)
  deriving DecidableEq, Repr

/-- A parsed constraint: a disjunction of conjunctions of units. -/
structure VersionConstraint where
  groups : List (List CUnit)
  deriving DecidableEq, Repr

/-- Split an operator from the front of a constraint token. -/
def parseOp (cs : List Char) : COp × List Char :=
  match cs with
  | '>' :: '=' :: rest => (.cge, rest)
  | '=' :: '>' :: rest => (.cge, rest)
  | '<' :: '=' :: rest => (.cle, rest)
  | '=' :: '<' :: rest => (.cle, rest)
  | '!' :: '=' :: rest => (.cne, rest)
  | '>' :: rest => (.cgt, rest)
  | '<' :: rest => (.clt, rest)
  | '=' :: rest => (.ceq, rest)
  | rest => (.ceq, rest)

/-- One token of a constraint alternative. -/
def parseCUnit (cs : List Char) : Option CUnit :=
  if cs = ['*'] ∨ cs = ['x'] ∨ cs = ['X'] then some .star
  else
    let (op, rest) := parseOp cs
    match parseSemVer true (String.mk rest) with
    | some v => some (.cmp op v)
    | none => none

/-- One `||`-alternative: whitespace- or comma-separated units. -/
def parseGroup (cs : List Char) : Option (List CUnit) :=
  let toks := (cs.splitOnP (fun c => c = ' ' ∨ c = ',' ∨ c = '\t')).filter (· ≠ [])
  if toks = [] then none else toks.mapM parseCUnit

/-- `semver.NewConstraint` (modelled subset). -/
def newConstraint (s : String) : Option VersionConstraint :=
  match ((splitChar '|' s.data).splitOnP (· = [])).mapM
      (fun seg => parseGroup (joinChar '|' seg)) with
  | some gs => some ⟨gs⟩
  | none => none

/-- `constraint.check` for one unit. -/
def checkCUnit (v : SemVer) : CUnit → Bool
  | .star => v.pre = []
  | .cmp op con =>
    if v.pre ≠ [] ∧ con.pre = [] then false
    else
      match op with
      | .ceq => cmpV v con = .eq
      | .cne => cmpV v con ≠ .eq
      | .cgt => cmpV v con = .gt
      | .cge => cmpV v con ≠ .lt
      | .clt => cmpV v con = .lt
      | .cle => cmpV v con ≠ .gt

/-- `Constraints.Check`: some alternative has all its units satisfied. -/
def checkConstraint (c : VersionConstraint) (v : SemVer) : Bool :=
  c.groups.any (fun g => g.all (checkCUnit v))

example : newConstraint "*" = some ⟨[[.star]]⟩ := by decide
example : (newConstraint ">=11.0.0 <12.0.0").isSome = true := by decide
example : newConstraint "" = none := by decide
example : newConstraint "nonsense" = none := by decide
example : (newConstraint ">=11.0.0 <12.0.0").map
    (fun c => (checkConstraint c ⟨11, 0, 2, []⟩, checkConstraint c ⟨12, 0, 0, []⟩)) =
    some (true, false) := by decide
example : (newConstraint "*").map
    (fun c => (checkConstraint c ⟨1, 2, 3, []⟩, checkConstraint c ⟨1, 2, 3, [['b']]⟩)) =
    some (true, false) := by decide

/-! ### `buildpack.go`: `DependencyResolver.Resolve` and `Any` -/

namespace libpak

/-- `BuildpackDependencyLicense`.  The Go field `Type` is renamed
`LicenseType` because `Type` is a Lean keyword. -/
structure BuildpackDependencyLicense where
  LicenseType : String
  URI : String
  deriving DecidableEq, Repr, Inhabited

/-- `BuildpackDependency`.  The Go zero value corresponds to `default`. -/
structure BuildpackDependency where
  ID : String
  Name : String
  Version : String
  URI : String
  SHA256 : String
  Stacks : List String
  Licenses : List BuildpackDependencyLicense
  deriving DecidableEq, Repr, Inhabited

/-- `DependencyResolver`. -/
structure DependencyResolver where
  Dependencies : List BuildpackDependency
  StackID : String
  deriving Repr, Inhabited

/-- The errors `Resolve` can return.  `noValidDependencies` corresponds to
`NoValidDependenciesError` (its message, which renders the query and the
catalog, is represented by the query data); the other two are the wrapped
`semver` parse errors. -/
inductive ResolveErr
  | invalidConstraint (expr : String)
  | unparsableVersion (raw : String)
  | noValidDependencies (id expr stackID : String)
  deriving DecidableEq, Repr

/-- `ResolveErr.isParse` is true for the two fatal parse errors. -/
def ResolveErr.isParse : ResolveErr → Bool
  | .invalidConstraint _ => true
  | .unparsableVersion _ => true
  | .noValidDependencies _ _ _ => false

/-- `DependencyResolver.contains`. -/
def contains (candidates : List String) (value : String) : Bool :=
  match candidates with
  | [] => false
  | c :: cs => c = value || contains cs value

/-- The semantic version of a dependency entry; the error of the second
parse inside the sort callback is ignored by the Go code, modelled by the
default value (the callback only runs on entries that already parsed). -/
def vOf (c : BuildpackDependency) : SemVer :=
  (newVersion c.Version).getD default

/-- The filter predicate of the candidate loop. -/
def isCandidate (id : String) (vc : VersionConstraint) (stackID : String)
    (c : BuildpackDependency) : Bool :=
  c.ID = id && checkConstraint vc (vOf c) && contains c.Stacks stackID

/-- The candidate-collection loop of `Resolve`: parse every entry's
version (a failure anywhere is fatal), keeping the entries that match the
query. -/
def candidatesOf (id : String) (vc : VersionConstraint) (stackID : String) :
    List BuildpackDependency → Except ResolveErr (List BuildpackDependency)
  | [] => .ok []
  | c :: rest =>
    match newVersion c.Version with
    | none => .error (.unparsableVersion c.Version)
    | some _ =>
      match candidatesOf id vc stackID rest with
      | .error e => .error e
      | .ok cs => .ok (if isCandidate id vc stackID c then c :: cs else cs)

/-- Descending semver order on dependencies: the sort relation derived
from the `GreaterThan` comparison used by `sort.Slice` in `Resolve`. -/
def vGe (a b : BuildpackDependency) : Prop := cmpV (vOf a) (vOf b) ≠ .lt

instance : DecidableRel vGe := fun a b => by unfold vGe; infer_instance

instance : IsTotal BuildpackDependency vGe where
  total a b := by
    rcases cmpV_laws.total (vOf a) (vOf b) with h | h
    · exact Or.inl h
    · exact Or.inr h

instance : IsTrans BuildpackDependency vGe where
  trans a b c hab hbc := cmpV_laws.le_trans (vOf a) (vOf b) (vOf c) hab hbc

/-- The shadowing `version = "*"` default at the top of `Resolve`. -/
def effectiveConstraint (version : String) : String :=
  if version = "" then "*" else version

/-- `DependencyResolver.Resolve`: default the constraint to `*`, parse it,
collect candidates, fail when none remain, otherwise sort descending by
semantic version and return the first element. -/
def DependencyResolver.resolve (d : DependencyResolver) (id version : String) :
    Except ResolveErr BuildpackDependency :=
  match newConstraint (effectiveConstraint version) with
  | none => .error (.invalidConstraint (effectiveConstraint version))
  | some vc =>
    match candidatesOf id vc d.StackID d.Dependencies with
    | .error e => .error e
    | .ok [] => .error (.noValidDependencies id (effectiveConstraint version) d.StackID)
    | .ok (c :: cs) => .ok ((List.insertionSort vGe (c :: cs)).headD c)

/-- `DependencyResolver.Any`: true exactly when `Resolve` returns no
error. -/
def DependencyResolver.any (d : DependencyResolver) (id version : String) : Bool :=
  match d.resolve id version with
  | .ok _ => true
  | .error _ => false

/-- The worked spec example: a `jdk` 11.0.2 entry for stack `bionic`. -/
def jdkDep : BuildpackDependency :=
  { ID := "jdk", Name := "JDK", Version := "11.0.2", URI := "https://example.com/jdk.tgz",
    SHA256 := "aa", Stacks := ["bionic"], Licenses := [] }

/-- A resolver used by the concrete witnesses. -/
def demoResolver : DependencyResolver :=
  { Dependencies := [jdkDep], StackID := "bionic" }

example : demoResolver.resolve "jdk" ">=11.0.0 <12.0.0" = .ok jdkDep := by rfl
example : demoResolver.resolve "jdk" ">=12.0.0" =
    .error (.noValidDependencies "jdk" ">=12.0.0" "bionic") := by rfl
example : demoResolver.resolve "jdk" "" = .ok jdkDep := by rfl
example : demoResolver.any "jdk" ">=12.0.0" = false := by rfl

/-- When every catalog entry's version parses, the candidate loop returns
exactly the entries matching the query, in catalog order. -/
theorem candidatesOf_eq_ok (id : String) (vc : VersionConstraint) (stackID : String)
    (l : List BuildpackDependency)
    (hparse : ∀ c ∈ l, (newVersion c.Version).isSome) :
    candidatesOf id vc stackID l = .ok (l.filter (fun c => isCandidate id vc stackID c)) := by
  induction l with
  | nil => rfl
  | cons c rest ih =>
    have hc := hparse c (by simp)
    cases hv : newVersion c.Version with
    | none => rw [hv] at hc; simp at hc
    | some v =>
      have := ih (fun x hx => hparse x (by simp [hx]))
      simp only [candidatesOf, hv, this, List.filter]
      cases hcand : isCandidate id vc stackID c <;> simp [hcand]

/-- Conversely, a successful candidate collection implies every entry
parsed and the result is the filtered catalog. -/
theorem candidatesOf_ok_inv (id : String) (vc : VersionConstraint) (stackID : String)
    (l cs : List BuildpackDependency)
    (h : candidatesOf id vc stackID l = .ok cs) :
    (∀ c ∈ l, (newVersion c.Version).isSome) ∧
      cs = l.filter (fun c => isCandidate id vc stackID c) := by
  induction l generalizing cs with
  | nil => simp only [candidatesOf] at h; cases h; simp
  | cons c rest ih =>
    simp only [candidatesOf] at h
    cases hv : newVersion c.Version with
    | none => rw [hv] at h; cases h
    | some v =>
      rw [hv] at h
      cases hrest : candidatesOf id vc stackID rest with
      | error e => rw [hrest] at h; cases h
      | ok cs' =>
        rw [hrest] at h
        cases h
        obtain ⟨hp, hcs⟩ := ih cs' hrest
        refine ⟨?_, ?_⟩
        · intro x hx
          rcases hx with _ | hx
          · simp [hv]
          · exact hp x (by assumption)
        · simp only [List.filter, hcs]
          cases hcand : isCandidate id vc stackID c <;> simp [hcand]

/-- An unparsable version anywhere in the catalog makes the candidate
loop fail with an `unparsableVersion` error. -/
theorem candidatesOf_error_of_bad (id : String) (vc : VersionConstraint) (stackID : String)
    (l : List BuildpackDependency) (c : BuildpackDependency)
    (hc : c ∈ l) (hbad : newVersion c.Version = none) :
    ∃ raw, candidatesOf id vc stackID l = .error (.unparsableVersion raw) ∧
      newVersion raw = none := by
  induction l with
  | nil => cases hc
  | cons c0 rest ih =>
    cases hv : newVersion c0.Version with
    | none => exact ⟨c0.Version, by simp [candidatesOf, hv], hv⟩
    | some v =>
      have hcrest : c ∈ rest := by
        rcases hc with _ | hc
        · rw [hbad] at hv; cases hv
        · assumption
      obtain ⟨raw, hraw, hrawbad⟩ := ih hcrest
      exact ⟨raw, by simp [candidatesOf, hv, hraw], hrawbad⟩

/-- Branch equations of `resolve`, used to destruct its control flow. -/
theorem resolve_eq_of_no_constraint {d : DependencyResolver} {id version : String}
    (hvc : newConstraint (effectiveConstraint version) = none) :
    d.resolve id version = .error (.invalidConstraint (effectiveConstraint version)) := by
  simp only [DependencyResolver.resolve, hvc]

theorem resolve_eq_of_cand_error {d : DependencyResolver} {id version : String}
    {vc : VersionConstraint} {e : ResolveErr}
    (hvc : newConstraint (effectiveConstraint version) = some vc)
    (hcand : candidatesOf id vc d.StackID d.Dependencies = .error e) :
    d.resolve id version = .error e := by
  simp only [DependencyResolver.resolve, hvc, hcand]

theorem resolve_eq_of_cand_nil {d : DependencyResolver} {id version : String}
    {vc : VersionConstraint}
    (hvc : newConstraint (effectiveConstraint version) = some vc)
    (hcand : candidatesOf id vc d.StackID d.Dependencies = .ok []) :
    d.resolve id version =
      .error (.noValidDependencies id (effectiveConstraint version) d.StackID) := by
  simp only [DependencyResolver.resolve, hvc, hcand]

theorem resolve_eq_of_cand_cons {d : DependencyResolver} {id version : String}
    {vc : VersionConstraint} {c : BuildpackDependency} {cs : List BuildpackDependency}
    (hvc : newConstraint (effectiveConstraint version) = some vc)
    (hcand : candidatesOf id vc d.StackID d.Dependencies = .ok (c :: cs)) :
    d.resolve id version = .ok ((List.insertionSort vGe (c :: cs)).headD c) := by
  simp only [DependencyResolver.resolve, hvc, hcand]

/-- Claim C1: when `Resolve` succeeds, the returned dependency is one of
the catalog entries matching the requested id, the parsed semantic-version
constraint, and the stack id, and no matching entry has a semantically
greater version (maximality is under `cmpV`, the semantic-version
ordering, not under string ordering). -/
theorem resolve_returns_semver_max (d : DependencyResolver) (id version : String)
    (dep : BuildpackDependency) (h : d.resolve id version = .ok dep) :
    ∃ vc, newConstraint (effectiveConstraint version) = some vc ∧
      dep ∈ d.Dependencies ∧
      isCandidate id vc d.StackID dep = true ∧
      ∀ c ∈ d.Dependencies, isCandidate id vc d.StackID c = true →
        cmpV (vOf c) (vOf dep) ≠ .gt := by
  cases hvc : newConstraint (effectiveConstraint version) with
  | none => rw [resolve_eq_of_no_constraint hvc] at h; cases h
  | some vc =>
    refine ⟨vc, rfl, ?_⟩
    cases hcand : candidatesOf id vc d.StackID d.Dependencies with
    | error e => rw [resolve_eq_of_cand_error hvc hcand] at h; cases h
    | ok cs0 =>
      obtain ⟨hparse, hfilter⟩ := candidatesOf_ok_inv _ _ _ _ _ hcand
      cases cs0 with
      | nil => rw [resolve_eq_of_cand_nil hvc hcand] at h; cases h
      | cons c cs =>
        rw [resolve_eq_of_cand_cons hvc hcand] at h
        simp only [Except.ok.injEq] at h
        have hperm : List.Perm (List.insertionSort vGe (c :: cs)) (c :: cs) :=
          List.perm_insertionSort vGe (c :: cs)
        have hsorted : List.Sorted vGe (List.insertionSort vGe (c :: cs)) :=
          List.sorted_insertionSort vGe (c :: cs)
        have hne : List.insertionSort vGe (c :: cs) ≠ [] := by
          intro hnil
          have := hperm.length_eq
          rw [hnil] at this
          simp at this
        cases hsort : List.insertionSort vGe (c :: cs) with
        | nil => exact absurd hsort hne
        | cons s0 rest =>
          rw [hsort] at h
          simp only [List.headD_cons] at h
          replace h : dep = s0 := h.symm
          subst h
          have hdep_mem : dep ∈ c :: cs := by
            have : dep ∈ List.insertionSort vGe (c :: cs) := by rw [hsort]; simp
            exact hperm.mem_iff.mp this
          have hdep_cat : dep ∈ d.Dependencies ∧ isCandidate id vc d.StackID dep = true := by
            rw [hfilter] at hdep_mem
            simpa using List.mem_filter.mp hdep_mem
          refine ⟨hdep_cat.1, hdep_cat.2, ?_⟩
          intro x hx hxcand
          have hx_mem : x ∈ c :: cs := by
            rw [hfilter]
            exact List.mem_filter.mpr ⟨hx, by simpa using hxcand⟩
          have hge : vGe dep x := by
            have : x ∈ List.insertionSort vGe (c :: cs) := hperm.mem_iff.mpr hx_mem
            rw [hsort] at this
            rcases this with _ | hxr
            · exact fun hc => by rw [cmpV_laws.refl] at hc; cases hc
            · rw [hsort] at hsorted
              exact List.rel_of_sorted_cons hsorted x (by assumption)
          intro hgt
          exact hge (cmpV_laws.gt_swap hgt)

/-- Dependencies for the C1 witness: semver order and lexicographic
string order disagree between 9.0.0 and 10.0.0. -/
def jdk9 : BuildpackDependency :=
  { ID := "jdk", Name := "JDK", Version := "9.0.0", URI := "u9",
    SHA256 := "s9", Stacks := ["bionic"], Licenses := [] }

def jdk10 : BuildpackDependency :=
  { ID := "jdk", Name := "JDK", Version := "10.0.0", URI := "u10",
    SHA256 := "s10", Stacks := ["bionic"], Licenses := [] }

def lexDemoResolver : DependencyResolver :=
  { Dependencies := [jdk9, jdk10], StackID := "bionic" }

/-- Witness for C1: resolving `jdk` with the default constraint over
entries 9.0.0 and 10.0.0 picks 10.0.0 — the semver maximum — although
the string "10.0.0" sorts below "9.0.0" lexicographically. -/
theorem resolve_returns_semver_max_witness :
    lexDemoResolver.resolve "jdk" "" = .ok jdk10 ∧
    cmpList cmpChar jdk10.Version.data jdk9.Version.data = .lt ∧
    (∃ vc, newConstraint (effectiveConstraint "") = some vc ∧
      jdk10 ∈ lexDemoResolver.Dependencies ∧
      isCandidate "jdk" vc lexDemoResolver.StackID jdk10 = true ∧
      ∀ c ∈ lexDemoResolver.Dependencies,
        isCandidate "jdk" vc lexDemoResolver.StackID c = true →
          cmpV (vOf c) (vOf jdk10) ≠ .gt) :=
  ⟨rfl, by decide, resolve_returns_semver_max lexDemoResolver "jdk" "" jdk10 rfl⟩

/-- Claim C2: an unparsable version string anywhere in the catalog makes
`Resolve` fail with a fatal parse error (never `noValidDependencies`),
regardless of whether the malformed entry matches the query. -/
theorem resolve_fatal_on_unparsable_entry (d : DependencyResolver) (id version : String)
    (c : BuildpackDependency) (hc : c ∈ d.Dependencies)
    (hbad : newVersion c.Version = none) :
    ∃ e, d.resolve id version = .error e ∧ e.isParse = true := by
  cases hvc : newConstraint (effectiveConstraint version) with
  | none => exact ⟨.invalidConstraint _, resolve_eq_of_no_constraint hvc, rfl⟩
  | some vc =>
    obtain ⟨raw, hraw, _⟩ := candidatesOf_error_of_bad id vc d.StackID d.Dependencies c hc hbad
    exact ⟨.unparsableVersion raw, resolve_eq_of_cand_error hvc hraw, rfl⟩

/-- Catalog with one well-formed entry and one entry whose version cannot
be parsed, under a different id than the queried one. -/
def badEntry : BuildpackDependency :=
  { ID := "other", Name := "Other", Version := "garbage", URI := "uo",
    SHA256 := "so", Stacks := ["bionic"], Licenses := [] }

def poisonedResolver : DependencyResolver :=
  { Dependencies := [jdk9, badEntry], StackID := "bionic" }

/-- Witness for C2: the malformed `other`/`garbage` entry poisons a query
for `jdk` even though its id does not match. -/
theorem resolve_fatal_on_unparsable_entry_witness :
    badEntry ∈ poisonedResolver.Dependencies ∧ newVersion badEntry.Version = none ∧
    ∃ e, poisonedResolver.resolve "jdk" "" = .error e ∧ e.isParse = true :=
  ⟨by simp [poisonedResolver], by rfl,
    resolve_fatal_on_unparsable_entry poisonedResolver "jdk" "" badEntry
      (by simp [poisonedResolver]) rfl⟩

/-- Claim C3: `Any` returns true exactly when `Resolve` succeeds; and for
a parseable query no catalog entry satisfies, `Resolve` returns the
`noValidDependencies` error and `Any` returns false. -/
theorem any_iff_resolve_succeeds (d : DependencyResolver) (id version : String) :
    (d.any id version = true ↔ ∃ dep, d.resolve id version = .ok dep) ∧
    (∀ vc, newConstraint (effectiveConstraint version) = some vc →
      (∀ c ∈ d.Dependencies, (newVersion c.Version).isSome) →
      (∀ c ∈ d.Dependencies, isCandidate id vc d.StackID c = false) →
      d.resolve id version =
          .error (.noValidDependencies id (effectiveConstraint version) d.StackID) ∧
        d.any id version = false) := by
  constructor
  · unfold DependencyResolver.any
    cases hr : d.resolve id version with
    | ok dep => simp [hr]
    | error e => simp [hr]
  · intro vc hvc hparse hnone
    have hfilter : d.Dependencies.filter (fun c => isCandidate id vc d.StackID c) = [] := by
      simp only [List.filter_eq_nil_iff]
      intro c hc
      simp [hnone c hc]
    have hcand := candidatesOf_eq_ok id vc d.StackID d.Dependencies hparse
    rw [hfilter] at hcand
    have hres : d.resolve id version =
        .error (.noValidDependencies id (effectiveConstraint version) d.StackID) :=
      resolve_eq_of_cand_nil hvc hcand
    exact ⟨hres, by unfold DependencyResolver.any; rw [hres]⟩

/-- Witness for C3: the spec's worked example — constraint `>=12.0.0` is
unsatisfiable over the 11.0.2 catalog, `Resolve` reports
`noValidDependencies` and `Any` is false. -/
theorem any_iff_resolve_succeeds_witness :
    (demoResolver.any "jdk" ">=12.0.0" = true ↔
      ∃ dep, demoResolver.resolve "jdk" ">=12.0.0" = .ok dep) ∧
    (newConstraint (effectiveConstraint ">=12.0.0")).isSome = true ∧
    demoResolver.resolve "jdk" ">=12.0.0" =
      .error (.noValidDependencies "jdk" ">=12.0.0" "bionic") ∧
    demoResolver.any "jdk" ">=12.0.0" = false := by
  have h := any_iff_resolve_succeeds demoResolver "jdk" ">=12.0.0"
  refine ⟨h.1, by decide, ?_⟩
  have h2 := h.2 ⟨[[.cmp .cge ⟨12, 0, 0, []⟩]]⟩ (by decide) (by decide) (by decide)
  exact h2

/-- Claim C10: every `Resolve` failure — recoverable or fatal — makes
`Any` return false; `Any` erases the distinction between the error
kinds. -/
theorem any_false_on_any_resolve_error (d : DependencyResolver) (id version : String)
    (e : ResolveErr) (h : d.resolve id version = .error e) :
    d.any id version = false := by
  unfold DependencyResolver.any
  rw [h]

/-- Witness for C10: `Any` is false both for a malformed constraint
expression and for a catalog containing an unparsable version — the same
false a plain no-match produces. -/
theorem any_false_on_any_resolve_error_witness :
    demoResolver.resolve "jdk" "not a constraint" =
        .error (.invalidConstraint "not a constraint") ∧
      demoResolver.any "jdk" "not a constraint" = false ∧
    poisonedResolver.resolve "jdk" "*" = .error (.unparsableVersion "garbage") ∧
      poisonedResolver.any "jdk" "*" = false :=
  ⟨rfl, any_false_on_any_resolve_error demoResolver "jdk" "not a constraint" _ rfl,
    rfl, any_false_on_any_resolve_error poisonedResolver "jdk" "*" _ rfl⟩

/-! ### `dependency_cache.go`: `DependencyCache.Artifact`

The file system is explicit state: a map from path to decoded sidecar
TOML (`toml`) and a map from path to artifact bytes (`data`).  TOML
encoding/decoding round-trips, so a sidecar file holds either a decoded
`BuildpackDependency` or undecodable contents (`TomlFile.bad`, which
`toml.DecodeFile` reports as an error that is not `IsNotExist`).  The
network is `net : String → Option Content` (`none` covers request errors
and non-2xx statuses) and the SHA-256 hex digest of a byte stream is the
abstract parameter `hash`. -/

/-- Contents of a sidecar metadata file as seen by `toml.DecodeFile`. -/
inductive TomlFile
  | bad
  | good (d : BuildpackDependency)
  deriving DecidableEq, Repr

/-- The file-system state touched by `Artifact`. -/
structure FS where
  toml : List (String × TomlFile)
  data : List (String × Content)
  deriving Repr

/-- The empty file system. -/
def FS.empty : FS := ⟨[], []⟩

def lookupIn {α : Type _} (m : List (String × α)) (path : String) : Option α :=
  match m with
  | [] => none
  | (p, v) :: rest => if p = path then some v else lookupIn rest path

def insertIn {α : Type _} (m : List (String × α)) (path : String) (v : α) :
    List (String × α) :=
  match m with
  | [] => [(path, v)]
  | (p, w) :: rest => if p = path then (p, v) :: rest else (p, w) :: insertIn rest path v

def FS.lookupToml (fs : FS) (path : String) : Option TomlFile := lookupIn fs.toml path

def FS.lookupData (fs : FS) (path : String) : Option Content := lookupIn fs.data path

def FS.writeToml (fs : FS) (path : String) (d : BuildpackDependency) : FS :=
  { fs with toml := insertIn fs.toml path (.good d) }

def FS.writeData (fs : FS) (path : String) (content : Content) : FS :=
  { fs with data := insertIn fs.data path content }

/-- `DependencyCache` (the logger carries no observable state here). -/
structure DependencyCache where
  CachePath : String
  DownloadPath : String
  UserAgent : String
  deriving Repr

/-- The errors of the `Artifact` flow. -/
inductive CacheErr
  | decodeError (path : String)
  | downloadError (uri : String)
  | notFound (path : String)
  | integrityMismatch (path actual expected : String)
  deriving DecidableEq, Repr

/-- Which branch produced the returned stream: the digest-less direct
download, one of the two cache tiers, or a fresh verified download. -/
inductive ArtifactSource
  | direct
  | buildpackCache
  | downloadCache
  | downloaded
  deriving DecidableEq, Repr

/-- The returned open file. -/
structure Opened where
  source : ArtifactSource
  path : String
  content : Content
  deriving Repr

/-- `os.Open`: fails when the file does not exist. -/
def openAs (src : ArtifactSource) (fs : FS) (path : String) : Except CacheErr Opened :=
  match fs.lookupData path with
  | some content => .ok ⟨src, path, content⟩
  | none => .error (.notFound path)

/-- `toml.DecodeFile(file, &actual)`: a missing file leaves `actual`
untouched (the `IsNotExist` branch), undecodable contents abort, and a
decodable file overwrites `actual`. -/
def readTomlInto (fs : FS) (path : String) (actual : BuildpackDependency) :
    Except CacheErr BuildpackDependency :=
  match fs.lookupToml path with
  | none => .ok actual
  | some .bad => .error (.decodeError path)
  | some (.good d) => .ok d

/-- `DependencyCache.download`: GET the URI and write the body to the
destination, creating parent directories. -/
def download (net : String → Option Content) (fs : FS) (uri destination : String) :
    Except CacheErr FS :=
  match net uri with
  | none => .error (.downloadError uri)
  | some content => .ok (fs.writeData destination content)

/-- `DependencyCache.verify`: hex SHA-256 of the file at `path` must equal
`expected`. -/
def verify (hash : Content → String) (fs : FS) (path expected : String) :
    Except CacheErr Unit :=
  match fs.lookupData path with
  | none => .error (.notFound path)
  | some bytes =>
    if hash bytes ≠ expected then .error (.integrityMismatch path (hash bytes) expected)
    else .ok ()

/-- `<CachePath>/<digest>.toml`, the permanent tier's sidecar file. -/
def cacheTomlPath (d : DependencyCache) (dep : BuildpackDependency) : String :=
  goJoin [d.CachePath, dep.SHA256 ++ ".toml"]

/-- `<CachePath>/<digest>/<basename(URI)>`, the permanent tier's artifact. -/
def cacheArtifactPath (d : DependencyCache) (dep : BuildpackDependency) : String :=
  goJoin [d.CachePath, dep.SHA256, goBase dep.URI]

/-- `<DownloadPath>/<digest>.toml`, the ephemeral tier's sidecar file. -/
def dlTomlPath (d : DependencyCache) (dep : BuildpackDependency) : String :=
  goJoin [d.DownloadPath, dep.SHA256 ++ ".toml"]

/-- `<DownloadPath>/<digest>/<basename(URI)>`, the ephemeral artifact. -/
def dlArtifactPath (d : DependencyCache) (dep : BuildpackDependency) : String :=
  goJoin [d.DownloadPath, dep.SHA256, goBase dep.URI]

/-- `<DownloadPath>/<basename(URI)>`, where a digest-less dependency is
downloaded. -/
def directPath (d : DependencyCache) (dep : BuildpackDependency) : String :=
  goJoin [d.DownloadPath, goBase dep.URI]

/-- The full-miss tail of `Artifact`: download into the ephemeral tier
under a digest-keyed path, verify, persist the sidecar metadata, and
open the artifact. -/
def fetchAndPersist (d : DependencyCache) (hash : Content → String)
    (net : String → Option Content) (fs : FS) (dep : BuildpackDependency) :
    FS × Except CacheErr Opened :=
  match download net fs dep.URI (dlArtifactPath d dep) with
  | .error e => (fs, .error e)
  | .ok fs =>
    match verify hash fs (dlArtifactPath d dep) dep.SHA256 with
    | .error e => (fs, .error e)
    | .ok _ =>
      let fs := fs.writeToml (dlTomlPath d dep) dep
      (fs, openAs .downloaded fs (dlArtifactPath d dep))

/-- `DependencyCache.Artifact`.  The first component of the result is the
file system after the call (the Go code mutates the real file system even
on the error paths). -/
def DependencyCache.artifact (d : DependencyCache) (hash : Content → String)
    (net : String → Option Content) (fs : FS) (dep : BuildpackDependency) :
    FS × Except CacheErr Opened :=
  if dep.SHA256 = "" then
    match download net fs dep.URI (directPath d dep) with
    | .error e => (fs, .error e)
    | .ok fs => (fs, openAs .direct fs (directPath d dep))
  else
    match readTomlInto fs (cacheTomlPath d dep) default with
    | .error e => (fs, .error e)
    | .ok actual =>
      if dep = actual then
        (fs, openAs .buildpackCache fs (cacheArtifactPath d dep))
      else
        match readTomlInto fs (dlTomlPath d dep) actual with
        | .error e => (fs, .error e)
        | .ok actual =>
          if dep = actual then
            (fs, openAs .downloadCache fs (dlArtifactPath d dep))
          else
            fetchAndPersist d hash net fs dep

theorem lookupIn_insertIn_self {α : Type _} (m : List (String × α)) (path : String) (v : α) :
    lookupIn (insertIn m path v) path = some v := by
  induction m with
  | nil => simp [insertIn, lookupIn]
  | cons hd rest ih =>
    obtain ⟨p, w⟩ := hd
    by_cases hp : p = path <;> simp [insertIn, lookupIn, hp, ih]

/-- `writeData` leaves every sidecar file untouched. -/
theorem writeData_toml (fs : FS) (path : String) (content : Content) :
    (fs.writeData path content).toml = fs.toml := rfl

/-- `writeData` then lookup at the written path. -/
theorem lookupData_writeData_self (fs : FS) (path : String) (content : Content) :
    (fs.writeData path content).lookupData path = some content :=
  lookupIn_insertIn_self fs.data path content

/-- The same fact with the record projections exposed. -/
theorem lookupIn_writeData (fs : FS) (path : String) (content : Content) :
    lookupIn (fs.writeData path content).data path = some content :=
  lookupIn_insertIn_self fs.data path content

/-- A tier misses when its sidecar file is absent or decodes to a
descriptor that is not structurally equal to the request. -/
def tierMiss (fs : FS) (path : String) (dep : BuildpackDependency) : Prop :=
  fs.lookupToml path = none ∨
    ∃ a, fs.lookupToml path = some (.good a) ∧ a ≠ dep

/-- A dependency with a digest is never the Go zero value. -/
theorem ne_default_of_sha (dep : BuildpackDependency) (hsha : dep.SHA256 ≠ "") :
    dep ≠ (default : BuildpackDependency) := by
  intro h
  exact hsha (by rw [h]; rfl)

/-- When both tiers miss, `Artifact` is the download-and-verify tail. -/
theorem artifact_full_miss (d : DependencyCache) (hash : Content → String)
    (net : String → Option Content) (fs : FS) (dep : BuildpackDependency)
    (hsha : dep.SHA256 ≠ "")
    (hmiss1 : tierMiss fs (cacheTomlPath d dep) dep)
    (hmiss2 : tierMiss fs (dlTomlPath d dep) dep) :
    d.artifact hash net fs dep = fetchAndPersist d hash net fs dep := by
  have hdef := ne_default_of_sha dep hsha
  rcases hmiss1 with h1 | ⟨a, h1, ha⟩ <;> rcases hmiss2 with h2 | ⟨b, h2, hb⟩
  · simp only [DependencyCache.artifact, if_neg hsha, readTomlInto, h1, h2]
    rw [if_neg hdef, if_neg hdef]
  · simp only [DependencyCache.artifact, if_neg hsha, readTomlInto, h1, h2]
    rw [if_neg hdef, if_neg (fun h => hb h.symm)]
  · simp only [DependencyCache.artifact, if_neg hsha, readTomlInto, h1, h2]
    rw [if_neg (fun h => ha h.symm), if_neg (fun h => ha h.symm)]
  · simp only [DependencyCache.artifact, if_neg hsha, readTomlInto, h1, h2]
    rw [if_neg (fun h => ha h.symm), if_neg (fun h => hb h.symm)]

/-- Claim C4: with an empty digest, `Artifact` bypasses both cache tiers
unconditionally — it downloads from the dependency URI into the download
directory and returns that stream; no sidecar metadata is written in
either tier, and the outcome does not depend on the file-system state at
all, so repeated calls re-fetch even when identical content is cached
under some digest. -/
theorem artifact_empty_digest_bypasses_cache (d : DependencyCache)
    (hash : Content → String) (net : String → Option Content) (fs : FS)
    (dep : BuildpackDependency) (hsha : dep.SHA256 = "") :
    (∀ content, net dep.URI = some content →
      d.artifact hash net fs dep =
        (fs.writeData (directPath d dep) content,
          .ok ⟨.direct, directPath d dep, content⟩)) ∧
    (net dep.URI = none →
      d.artifact hash net fs dep = (fs, .error (.downloadError dep.URI))) ∧
    (d.artifact hash net fs dep).1.toml = fs.toml ∧
    (∀ fs', (d.artifact hash net fs' dep).2 = (d.artifact hash net fs dep).2) := by
  have hbody : ∀ fs0 : FS, d.artifact hash net fs0 dep =
      match download net fs0 dep.URI (directPath d dep) with
      | .error e => (fs0, .error e)
      | .ok fs1 => (fs1, openAs .direct fs1 (directPath d dep)) := by
    intro fs0
    simp only [DependencyCache.artifact, if_pos hsha]
  refine ⟨?_, ?_, ?_, ?_⟩
  · intro content hnet
    rw [hbody fs]
    simp only [download, hnet, openAs, FS.lookupData, lookupIn_writeData]
  · intro hnet
    rw [hbody fs]
    simp only [download, hnet]
  · rw [hbody fs]
    cases hnet : net dep.URI with
    | none => simp [download, hnet]
    | some content =>
      simp only [download, hnet]
      rfl
  · intro fs'
    rw [hbody fs, hbody fs']
    cases hnet : net dep.URI with
    | none => simp [download, hnet]
    | some content =>
      simp only [download, hnet]
      simp only [openAs, FS.lookupData, lookupIn_writeData]

/-- Concrete data for the cache witnesses. -/
def demoCache : DependencyCache :=
  { CachePath := "/cache", DownloadPath := "/dl", UserAgent := "test-agent" }

def demoCachedDep : BuildpackDependency :=
  { ID := "dep", Name := "Dep", Version := "1.1.1", URI := "https://h/f.tgz",
    SHA256 := "sha1", Stacks := ["bionic"], Licenses := [] }

/-- A hash function that maps the canonical payload to its declared
digest. -/
def demoHash : Content → String := fun c => if c = [1, 2, 3] then "sha1" else "bad"

def demoNet : String → Option Content := fun uri =>
  if uri = "https://h/f.tgz" then some [1, 2, 3] else none

/-- A file system holding the dependency in both tiers and an unrelated
digest-less payload over the network only. -/
def demoFS : FS :=
  { toml := [("/cache/sha1.toml", .good demoCachedDep), ("/dl/sha1.toml", .good demoCachedDep)],
    data := [("/cache/sha1/f.tgz", [1, 2, 3]), ("/dl/sha1/f.tgz", [1, 2, 3])] }

def demoNoShaDep : BuildpackDependency :=
  { ID := "dep", Name := "Dep", Version := "1.1.1", URI := "https://h/f.tgz",
    SHA256 := "", Stacks := ["bionic"], Licenses := [] }

/-- Witness for C4: even with both tiers populated for the same URI, the
digest-less dependency is fetched from the network, nothing is added to
any sidecar, and the result ignores the file-system state. -/
theorem artifact_empty_digest_bypasses_cache_witness :
    demoNoShaDep.SHA256 = "" ∧
    ((∀ content, demoNet demoNoShaDep.URI = some content →
      demoCache.artifact demoHash demoNet demoFS demoNoShaDep =
        (demoFS.writeData (directPath demoCache demoNoShaDep) content,
          .ok ⟨.direct, directPath demoCache demoNoShaDep, content⟩)) ∧
    (demoNet demoNoShaDep.URI = none →
      demoCache.artifact demoHash demoNet demoFS demoNoShaDep =
        (demoFS, .error (.downloadError demoNoShaDep.URI))) ∧
    (demoCache.artifact demoHash demoNet demoFS demoNoShaDep).1.toml = demoFS.toml ∧
    (∀ fs', (demoCache.artifact demoHash demoNet fs' demoNoShaDep).2 =
      (demoCache.artifact demoHash demoNet demoFS demoNoShaDep).2)) :=
  ⟨rfl, artifact_empty_digest_bypasses_cache demoCache demoHash demoNet demoFS
    demoNoShaDep rfl⟩

/-- Claim C5: with a non-empty digest the tiers are consulted in order.
A tier hits only when its sidecar decodes to a descriptor structurally
equal to the requested dependency in every field; on a hit the stored
artifact stream of that tier is returned, the file system is unchanged
and the network is never consulted (the result is the same for every
`net`); when both tiers miss the call falls through to the network
origin. -/
theorem artifact_tier_order_and_structural_equality (d : DependencyCache)
    (hash : Content → String) (net : String → Option Content) (fs : FS)
    (dep : BuildpackDependency) (hsha : dep.SHA256 ≠ "") :
    (fs.lookupToml (cacheTomlPath d dep) = some (.good dep) →
      d.artifact hash net fs dep = (fs, openAs .buildpackCache fs (cacheArtifactPath d dep))) ∧
    (tierMiss fs (cacheTomlPath d dep) dep →
      fs.lookupToml (dlTomlPath d dep) = some (.good dep) →
      d.artifact hash net fs dep = (fs, openAs .downloadCache fs (dlArtifactPath d dep))) ∧
    (tierMiss fs (cacheTomlPath d dep) dep →
      tierMiss fs (dlTomlPath d dep) dep →
      d.artifact hash net fs dep = fetchAndPersist d hash net fs dep) := by
  refine ⟨?_, ?_, ?_⟩
  · intro h1
    simp only [DependencyCache.artifact, if_neg hsha, readTomlInto, h1]
    rw [if_true]
  · intro hmiss1 h2
    have hdef := ne_default_of_sha dep hsha
    rcases hmiss1 with h1 | ⟨a, h1, ha⟩
    · simp only [DependencyCache.artifact, if_neg hsha, readTomlInto, h1, h2]
      rw [if_neg hdef, if_true]
    · simp only [DependencyCache.artifact, if_neg hsha, readTomlInto, h1, h2]
      rw [if_neg (fun h => ha h.symm), if_true]
  · intro hmiss1 hmiss2
    exact artifact_full_miss d hash net fs dep hsha hmiss1 hmiss2

/-- Witness for C5: the populated permanent tier of `demoFS` serves the
request without touching anything else. -/
theorem artifact_tier_order_and_structural_equality_witness :
    demoCachedDep.SHA256 ≠ "" ∧
    ((demoFS.lookupToml (cacheTomlPath demoCache demoCachedDep) =
        some (.good demoCachedDep) →
      demoCache.artifact demoHash demoNet demoFS demoCachedDep =
        (demoFS, openAs .buildpackCache demoFS (cacheArtifactPath demoCache demoCachedDep))) ∧
    (tierMiss demoFS (cacheTomlPath demoCache demoCachedDep) demoCachedDep →
      demoFS.lookupToml (dlTomlPath demoCache demoCachedDep) =
        some (.good demoCachedDep) →
      demoCache.artifact demoHash demoNet demoFS demoCachedDep =
        (demoFS, openAs .downloadCache demoFS (dlArtifactPath demoCache demoCachedDep))) ∧
    (tierMiss demoFS (cacheTomlPath demoCache demoCachedDep) demoCachedDep →
      tierMiss demoFS (dlTomlPath demoCache demoCachedDep) demoCachedDep →
      demoCache.artifact demoHash demoNet demoFS demoCachedDep =
        fetchAndPersist demoCache demoHash demoNet demoFS demoCachedDep)) ∧
    demoCache.artifact demoHash demoNet demoFS demoCachedDep =
      (demoFS, .ok ⟨.buildpackCache, "/cache/sha1/f.tgz", [1, 2, 3]⟩) :=
  ⟨by decide,
    artifact_tier_order_and_structural_equality demoCache demoHash demoNet demoFS
      demoCachedDep (by decide),
    by rfl⟩

/-- A network whose payload does not hash to the declared digest. -/
def badNet : String → Option Content := fun uri =>
  if uri = "https://h/f.tgz" then some [9, 9] else none

/-- Counterexample to C6 as stated: on an integrity mismatch `Artifact`
does fail and writes no sidecar metadata, but the downloaded bytes are
NOT discarded — they remain on disk at the digest-keyed download path of
the ephemeral tier. -/
theorem artifact_integrity_mismatch_keeps_downloaded_bytes :
    (demoCache.artifact demoHash badNet FS.empty demoCachedDep).2 =
      .error (.integrityMismatch "/dl/sha1/f.tgz" "bad" "sha1") ∧
    (demoCache.artifact demoHash badNet FS.empty demoCachedDep).1.lookupData
      "/dl/sha1/f.tgz" = some [9, 9] ∧
    (demoCache.artifact demoHash badNet FS.empty demoCachedDep).1.toml = [] :=
  ⟨by rfl, by rfl, by rfl⟩

/-- Claim C6 (amended): when the downloaded content's SHA-256 does not
equal the declared digest, `Artifact` fails with an integrity error and
no sidecar metadata file is written (the sidecar map is exactly the one
before the call); the downloaded bytes remain in the ephemeral download
directory, but because no sidecar exists the invalid result can never be
served from a cache tier — a repeated call falls through to the origin
again. -/
theorem artifact_integrity_mismatch_no_sidecar (d : DependencyCache)
    (hash : Content → String) (net : String → Option Content) (fs : FS)
    (dep : BuildpackDependency) (content : Content)
    (hsha : dep.SHA256 ≠ "")
    (hmiss1 : tierMiss fs (cacheTomlPath d dep) dep)
    (hmiss2 : tierMiss fs (dlTomlPath d dep) dep)
    (hnet : net dep.URI = some content)
    (hbad : hash content ≠ dep.SHA256) :
    d.artifact hash net fs dep =
      (fs.writeData (dlArtifactPath d dep) content,
        .error (.integrityMismatch (dlArtifactPath d dep) (hash content) dep.SHA256)) ∧
    (d.artifact hash net fs dep).1.toml = fs.toml ∧
    (∀ net', d.artifact hash net' (fs.writeData (dlArtifactPath d dep) content) dep =
      fetchAndPersist d hash net' (fs.writeData (dlArtifactPath d dep) content) dep) := by
  have hfetch : fetchAndPersist d hash net fs dep =
      (fs.writeData (dlArtifactPath d dep) content,
        .error (.integrityMismatch (dlArtifactPath d dep) (hash content) dep.SHA256)) := by
    simp only [fetchAndPersist, download, hnet, verify, FS.lookupData, lookupIn_writeData,
      if_pos hbad]
  have hmain := artifact_full_miss d hash net fs dep hsha hmiss1 hmiss2
  refine ⟨hmain.trans hfetch, ?_, ?_⟩
  · rw [hmain, hfetch]
    rfl
  · intro net'
    have hm1 : tierMiss (fs.writeData (dlArtifactPath d dep) content)
        (cacheTomlPath d dep) dep := hmiss1
    have hm2 : tierMiss (fs.writeData (dlArtifactPath d dep) content)
        (dlTomlPath d dep) dep := hmiss2
    exact artifact_full_miss d hash net' _ dep hsha hm1 hm2

/-- Witness for the amended C6 at the concrete counterexample inputs. -/
theorem artifact_integrity_mismatch_no_sidecar_witness :
    demoCachedDep.SHA256 ≠ "" ∧ badNet demoCachedDep.URI = some [9, 9] ∧
    demoHash [9, 9] ≠ demoCachedDep.SHA256 ∧
    (demoCache.artifact demoHash badNet FS.empty demoCachedDep =
      (FS.empty.writeData (dlArtifactPath demoCache demoCachedDep) [9, 9],
        .error (.integrityMismatch (dlArtifactPath demoCache demoCachedDep)
          (demoHash [9, 9]) demoCachedDep.SHA256)) ∧
    (demoCache.artifact demoHash badNet FS.empty demoCachedDep).1.toml = FS.empty.toml ∧
    (∀ net', demoCache.artifact demoHash net'
        (FS.empty.writeData (dlArtifactPath demoCache demoCachedDep) [9, 9]) demoCachedDep =
      fetchAndPersist demoCache demoHash net'
        (FS.empty.writeData (dlArtifactPath demoCache demoCachedDep) [9, 9]) demoCachedDep)) :=
  ⟨by decide, by rfl, by decide,
    artifact_integrity_mismatch_no_sidecar demoCache demoHash badNet FS.empty
      demoCachedDep [9, 9] (by decide) (Or.inl rfl) (Or.inl rfl) rfl (by decide)⟩

end libpak

/-! ### `layer.go` (`crush` package): `ExtractTar` and `strippedPath`

The tar stream is the list of its entries (reaching the end of the list
is the `io.EOF` termination of the decode loop; decode errors are not
modelled).  The destination file system records created directories,
written files and created symbolic links; `os.Symlink` fails when the
new name already exists, which is the one extraction error surfaced by
this model. -/

namespace crush

/-- The payload kinds `ExtractTar` distinguishes: directories, symbolic
links, and regular files (with mode bits as a `Nat`). -/
inductive TarKind
  | dir
  | symlink (linkname : String)
  | file (content : Content) (mode : Nat)
  deriving DecidableEq, Repr

/-- One tar entry. -/
structure TarEntry where
  name : String
  kind : TarKind
  deriving DecidableEq, Repr

/-- The destination file-system state. -/
structure XFS where
  dirs : List String
  files : List (String × Content × Nat)
  links : List (String × String)
  deriving DecidableEq, Repr

def XFS.empty : XFS := ⟨[], [], []⟩

/-- Whether a path exists in any role. -/
def XFS.exists (fs : XFS) (path : String) : Bool :=
  fs.dirs.contains path || fs.files.any (fun f => f.1 = path) ||
    fs.links.any (fun l => l.1 = path)

/-- `os.MkdirAll`: idempotent directory creation. -/
def XFS.mkdirAll (fs : XFS) (path : String) : XFS :=
  if fs.dirs.contains path then fs else { fs with dirs := path :: fs.dirs }

/-- `Crush.writeFile`: create the parent directory, then write the file
(truncating any previous contents). -/
def XFS.writeFile (fs : XFS) (path : String) (content : Content) (mode : Nat) : XFS :=
  let fs := fs.mkdirAll (goDir path)
  { fs with files := (path, content, mode) :: fs.files.filter (fun f => f.1 ≠ path) }

inductive ExtractErr
  | linkExists (newname : String)
  deriving DecidableEq, Repr

/-- `Crush.writeSymlink`: create the parent directory, then `os.Symlink`,
which fails when the new name exists. -/
def XFS.writeSymlink (fs : XFS) (oldName newName : String) : Except ExtractErr XFS :=
  let fs := fs.mkdirAll (goDir newName)
  if fs.exists newName then .error (.linkExists newName)
  else .ok { fs with links := (newName, oldName) :: fs.links }

/-- `Crush.strippedPath`: split the entry name on the separator; a name
with at most `stripComponents` components maps to the empty string
(the caller skips it); otherwise the remaining components are joined
under the destination. -/
def strippedPath (source destination : String) (stripComponents : Nat) : String :=
  let components := strSplit '/' source
  if components.length ≤ stripComponents then ""
  else goJoin (destination :: components.drop stripComponents)

/-- `Crush.ExtractTar`: the decode loop over the entries. -/
def extractTar (destination : String) (stripComponents : Nat) :
    List TarEntry → XFS → Except ExtractErr XFS
  | [], fs => .ok fs
  | e :: rest, fs =>
    let target := strippedPath e.name destination stripComponents
    if target = "" then extractTar destination stripComponents rest fs
    else
      match e.kind with
      | .dir => extractTar destination stripComponents rest (fs.mkdirAll target)
      | .symlink linkname =>
        match fs.writeSymlink linkname target with
        | .error err => .error err
        | .ok fs => extractTar destination stripComponents rest fs
      | .file content mode =>
        extractTar destination stripComponents rest (fs.writeFile target content mode)

example : strippedPath "a/b/c.txt" "destination" 1 = "destination/b/c.txt" := by decide
example : strippedPath "a/b/c.txt" "destination" 3 = "" := by decide
example : strippedPath "a/b/" "destination" 1 = "destination/b" := by decide

/-- A string built from a nonempty character list is not the empty
string. -/
theorem mk_cons_ne_empty (c : Char) (cs : List Char) : String.mk (c :: cs) ≠ "" := by
  intro h
  have hdata : c :: cs = ([] : List Char) := congrArg String.data h
  cases hdata

/-- `filepath.Clean` never returns the empty string. -/
theorem goClean_ne_empty (path : String) : goClean path ≠ "" := by
  unfold goClean
  split
  · intro h
    exact absurd h (by decide)
  · dsimp only
    split
    · exact mk_cons_ne_empty _ _
    · split
      · intro h
        exact absurd h (by decide)
      · assumption

/-- `filepath.Join` with a nonempty first element never returns the
empty string. -/
theorem goJoin_cons_ne_empty (d : String) (rest : List String) (hd : d ≠ "") :
    goJoin (d :: rest) ≠ "" := by
  unfold goJoin
  rw [List.dropWhile_cons_of_neg (by simpa using hd)]
  exact goClean_ne_empty _

/-- Claim C7: `stripComponents` removes that many leading segments of the
entry name before placing it under the destination; an entry with at most
that many segments is skipped silently — the loop continues with no error
and no file-system effect. -/
theorem extractTar_strips_and_skips (name destination : String) (strip : Nat) :
    ((strSplit '/' name).length ≤ strip →
      strippedPath name destination strip = "" ∧
      ∀ kind rest fs, extractTar destination strip (⟨name, kind⟩ :: rest) fs =
        extractTar destination strip rest fs) ∧
    (strip < (strSplit '/' name).length → destination ≠ "" →
      strippedPath name destination strip =
        goJoin (destination :: (strSplit '/' name).drop strip) ∧
      (∀ content mode rest fs,
        extractTar destination strip (⟨name, .file content mode⟩ :: rest) fs =
          extractTar destination strip rest
            (fs.writeFile (goJoin (destination :: (strSplit '/' name).drop strip))
              content mode)) ∧
      (∀ rest fs, extractTar destination strip (⟨name, .dir⟩ :: rest) fs =
          extractTar destination strip rest
            (fs.mkdirAll (goJoin (destination :: (strSplit '/' name).drop strip))))) := by
  constructor
  · intro hle
    have hstr : strippedPath name destination strip = "" := by
      unfold strippedPath
      rw [if_pos hle]
    refine ⟨hstr, ?_⟩
    intro kind rest fs
    simp only [extractTar, hstr]
    rw [if_true]
  · intro hgt hdest
    have hnle : ¬ (strSplit '/' name).length ≤ strip := by omega
    have hstr : strippedPath name destination strip =
        goJoin (destination :: (strSplit '/' name).drop strip) := by
      unfold strippedPath
      rw [if_neg hnle]
    have hne : goJoin (destination :: (strSplit '/' name).drop strip) ≠ "" :=
      goJoin_cons_ne_empty destination _ hdest
    refine ⟨hstr, ?_, ?_⟩
    · intro content mode rest fs
      simp only [extractTar, hstr]
      rw [if_neg hne]
    · intro rest fs
      simp only [extractTar, hstr]
      rw [if_neg hne]

/-- Witness for C7: the spec's example — `a/b/c.txt` with one stripped
component lands at `destination/b/c.txt`; with three stripped components
the entry produces no output at all. -/
theorem extractTar_strips_and_skips_witness :
    ((strSplit '/' "a/b/c.txt").length ≤ 3 ∧
      strippedPath "a/b/c.txt" "destination" 3 = "" ∧
      extractTar "destination" 3 [⟨"a/b/c.txt", .file [1] 420⟩] XFS.empty =
        .ok XFS.empty) ∧
    ((1 : Nat) < (strSplit '/' "a/b/c.txt").length ∧
      strippedPath "a/b/c.txt" "destination" 1 = "destination/b/c.txt" ∧
      extractTar "destination" 1 [⟨"a/b/c.txt", .file [1] 420⟩] XFS.empty =
        .ok (XFS.empty.writeFile "destination/b/c.txt" [1] 420)) := by
  have h := extractTar_strips_and_skips "a/b/c.txt" "destination" 3
  have h1 := h.1 (by decide)
  have g := extractTar_strips_and_skips "a/b/c.txt" "destination" 1
  have g2 := g.2 (by decide) (by decide)
  refine ⟨⟨by decide, h1.1, ?_⟩, ⟨by decide, ?_, ?_⟩⟩
  · rw [h1.2 (.file [1] 420) [] XFS.empty]
    rfl
  · rw [g2.1]
    decide
  · rw [g2.2.1 [1] 420 [] XFS.empty]
    have hj : goJoin ("destination" :: (strSplit '/' "a/b/c.txt").drop 1) =
        "destination/b/c.txt" := by decide
    rw [hj]
    rfl

end crush

/-! ### `sherpa`'s `NewFileListing`

`filepath.Walk` is modelled by the list of visited items (path plus the
`os.FileInfo` data the goroutine reads); fan-in over the unordered result
channel is modelled by quantifying over permutations of the walk list,
which the final sort by `Path` makes irrelevant.  A regular file whose
contents cannot be read (`content = none`) models the open/read failure
that aborts the whole listing. -/

namespace sherpa

/-- The `os.FileInfo` data used by `NewFileListing`. -/
structure WalkInfo where
  mode : String
  mtime : String
  isDir : Bool
  content : Option Content
  deriving DecidableEq, Repr

/-- One visited filesystem entry. -/
structure WalkItem where
  path : String
  info : WalkInfo
  deriving DecidableEq, Repr

/-- `sherpa.FileEntry`; an absent digest is the zero value `""`
(`omitempty`). -/
structure FileEntry where
  Path : String
  Mode : String
  ModificationTime : String
  SHA256 : String
  deriving DecidableEq, Repr, Inhabited

inductive ListingErr
  | unreadable (path : String)
  deriving DecidableEq, Repr

/-- The per-entry unit of work: directories produce an entry without a
digest; regular files are hashed, and a read failure is an error. -/
def entryOf (hash : Content → String) (it : WalkItem) : Except ListingErr FileEntry :=
  if it.info.isDir then
    .ok ⟨it.path, it.info.mode, it.info.mtime, ""⟩
  else
    match it.info.content with
    | none => .error (.unreadable it.path)
    | some c => .ok ⟨it.path, it.info.mode, it.info.mtime, hash c⟩

/-- The fan-in loop: the first error aborts, otherwise all entries are
collected (in the modelled completion order). -/
def collectEntries (hash : Content → String) :
    List WalkItem → Except ListingErr (List FileEntry)
  | [] => .ok []
  | it :: rest =>
    match entryOf hash it with
    | .error e => .error e
    | .ok e =>
      match collectEntries hash rest with
      | .error e2 => .error e2
      | .ok es => .ok (e :: es)

/-- Sort relation of the final `sort.Slice`: non-decreasing `Path` under
Go's byte-order string comparison. -/
def pathLe (a b : FileEntry) : Prop :=
  cmpList cmpChar a.Path.data b.Path.data ≠ .gt

/-- Strictly increasing `Path`, for uniqueness arguments. -/
def pathLt (a b : FileEntry) : Prop :=
  cmpList cmpChar a.Path.data b.Path.data = .lt

instance : DecidableRel pathLe := fun a b => by unfold pathLe; infer_instance

theorem cmp_ne_gt_iff {α : Type _} {c : α → α → Ordering} (h : CmpLaws c) (a b : α) :
    c a b ≠ .gt ↔ c b a ≠ .lt := by
  constructor
  · intro hne hlt
    exact hne (h.lt_swap hlt)
  · intro hne hgt
    exact hne (h.gt_swap hgt)

/-- String comparison is reflected: comparing equal means equal. -/
theorem cmpStr_eq (s o : List Char) (h : cmpList cmpChar s o = .eq) : s = o := by
  induction s generalizing o with
  | nil =>
    cases o with
    | nil => rfl
    | cons y ys => simp [cmpList] at h
  | cons x xs ih =>
    cases o with
    | nil => simp [cmpList] at h
    | cons y ys =>
      simp only [cmpList] at h
      cases hc : cmpChar x y <;> rw [hc] at h <;> simp [Ordering.then] at h
      have hxy : x = y := Char.ext (UInt32.toNat.inj (cmpNat_eq hc))
      rw [hxy, ih ys h]

instance : IsTotal FileEntry pathLe where
  total a b := by
    unfold pathLe
    rcases (cmpList_laws cmpChar_laws).total a.Path.data b.Path.data with h | h
    · exact Or.inr ((cmp_ne_gt_iff (cmpList_laws cmpChar_laws) _ _).mpr h)
    · exact Or.inl ((cmp_ne_gt_iff (cmpList_laws cmpChar_laws) _ _).mpr h)

instance : IsTrans FileEntry pathLe where
  trans a b c hab hbc := by
    unfold pathLe at *
    have h1 := (cmp_ne_gt_iff (cmpList_laws cmpChar_laws) _ _).mp hab
    have h2 := (cmp_ne_gt_iff (cmpList_laws cmpChar_laws) _ _).mp hbc
    exact (cmp_ne_gt_iff (cmpList_laws cmpChar_laws) _ _).mpr
      ((cmpList_laws cmpChar_laws).le_trans c.Path.data b.Path.data a.Path.data h2 h1)

instance : IsAntisymm FileEntry pathLt where
  antisymm a b hab hba := by
    unfold pathLt at *
    have := (cmpList_laws cmpChar_laws).lt_swap hab
    rw [hba] at this
    cases this

/-- `sherpa.NewFileListing`: skip the root itself, spawn one unit per
entry, abort on the first error, sort the results by `Path`. -/
def newFileListing (hash : Content → String) (root : String) (walk : List WalkItem) :
    Except ListingErr (List FileEntry) :=
  match collectEntries hash (walk.filter (fun it => it.path != root)) with
  | .error e => .error e
  | .ok es => .ok (List.insertionSort pathLe es)

/-- The entry a successful unit of work produces. -/
def entryValue (hash : Content → String) (it : WalkItem) : FileEntry :=
  match entryOf hash it with
  | .ok e => e
  | .error _ => default

theorem entryOf_ok_inv (hash : Content → String) (it : WalkItem) (e : FileEntry)
    (h : entryOf hash it = .ok e) :
    e.Path = it.path ∧ e.Mode = it.info.mode ∧ e.ModificationTime = it.info.mtime ∧
      (it.info.isDir = true → e.SHA256 = "") ∧
      (it.info.isDir = false → ∃ c, it.info.content = some c ∧ e.SHA256 = hash c) := by
  unfold entryOf at h
  cases hdir : it.info.isDir with
  | true =>
    rw [hdir] at h
    simp only [if_true] at h
    cases h
    simp
  | false =>
    rw [hdir] at h
    simp only [Bool.false_eq_true, if_false] at h
    cases hc : it.info.content with
    | none => rw [hc] at h; cases h
    | some c =>
      rw [hc] at h
      cases h
      simp

/-- When every unit succeeds, collection returns the image of
`entryValue` in order. -/
theorem collectEntries_eq_map (hash : Content → String) (l : List WalkItem)
    (hok : ∀ it ∈ l, (entryOf hash it).isOk) :
    collectEntries hash l = .ok (l.map (entryValue hash)) := by
  induction l with
  | nil => rfl
  | cons it rest ih =>
    have h1 := hok it (by simp)
    cases he : entryOf hash it with
    | error e => rw [he] at h1; simp [Except.isOk, Except.toBool] at h1
    | ok e =>
      have := ih (fun x hx => hok x (by simp [hx]))
      simp only [collectEntries, he, this, List.map]
      simp [entryValue, he]

/-- A successful collection means every unit succeeded. -/
theorem collectEntries_ok_inv (hash : Content → String) (l : List WalkItem)
    (es : List FileEntry) (h : collectEntries hash l = .ok es) :
    (∀ it ∈ l, (entryOf hash it).isOk) ∧ es = l.map (entryValue hash) := by
  induction l generalizing es with
  | nil => simp only [collectEntries] at h; cases h; simp
  | cons it rest ih =>
    simp only [collectEntries] at h
    cases he : entryOf hash it with
    | error e => rw [he] at h; cases h
    | ok e =>
      rw [he] at h
      cases hrest : collectEntries hash rest with
      | error e2 => rw [hrest] at h; cases h
      | ok es' =>
        rw [hrest] at h
        cases h
        obtain ⟨hoks, hmap⟩ := ih es' hrest
        refine ⟨?_, ?_⟩
        · intro x hx
          rcases hx with _ | hx
          · simp [he, Except.isOk, Except.toBool]
          · exact hoks x (by assumption)
        · simp [List.map, entryValue, he, hmap]

theorem entryOf_eq_ok (hash : Content → String) (it : WalkItem)
    (hok : (entryOf hash it).isOk) : entryOf hash it = .ok (entryValue hash it) := by
  unfold entryValue
  cases he : entryOf hash it with
  | error e => rw [he] at hok; simp [Except.isOk, Except.toBool] at hok
  | ok e => rfl

/-- Successful listings in closed form: every unit of the filtered walk
succeeded and the output is the sorted image of `entryValue`. -/
theorem newFileListing_ok_inv (hash : Content → String) (root : String)
    (walk : List WalkItem) (es : List FileEntry)
    (h : newFileListing hash root walk = .ok es) :
    (∀ it ∈ walk.filter (fun it => it.path != root), (entryOf hash it).isOk) ∧
      es = List.insertionSort pathLe
        ((walk.filter (fun it => it.path != root)).map (entryValue hash)) := by
  simp only [newFileListing] at h
  cases hcol : collectEntries hash (walk.filter (fun it => it.path != root)) with
  | error e => rw [hcol] at h; cases h
  | ok es0 =>
    rw [hcol] at h
    simp only [Except.ok.injEq] at h
    obtain ⟨hoks, hmap⟩ := collectEntries_ok_inv hash _ es0 hcol
    exact ⟨hoks, by rw [← h, hmap]⟩

theorem map_path_entryValue (hash : Content → String) (l : List WalkItem)
    (hok : ∀ it ∈ l, (entryOf hash it).isOk) :
    (l.map (entryValue hash)).map FileEntry.Path = l.map (fun it => it.path) := by
  rw [List.map_map]
  exact List.map_congr_left (fun it hit =>
    (entryOf_ok_inv hash it _ (entryOf_eq_ok hash it (hok it hit))).1)

theorem sorted_pathLt_of_le (l : List FileEntry) (hs : List.Sorted pathLe l)
    (hn : (l.map FileEntry.Path).Nodup) : List.Sorted pathLt l := by
  have hne : List.Pairwise (fun a b : FileEntry => a.Path ≠ b.Path) l :=
    List.pairwise_map.mp hn
  refine (hs.and hne).imp (fun h => ?_)
  obtain ⟨hle, hnep⟩ := h
  unfold pathLe at hle
  unfold pathLt
  cases hc : cmpList cmpChar _ _ with
  | lt => rfl
  | gt => exact absurd hc hle
  | eq => exact absurd (String.ext (cmpStr_eq _ _ hc)) hnep

/-- Claim C8: a successful listing excludes the root, is sorted by `Path`,
carries a digest exactly on the regular-file entries (directories have the
empty digest), and — given distinct walk paths — is the same list for
every completion order of the walk. -/
theorem newFileListing_sorted_root_excluded_digests (hash : Content → String)
    (root : String) (walk : List WalkItem) (es : List FileEntry)
    (h : newFileListing hash root walk = .ok es) :
    List.Sorted pathLe es ∧
    (∀ e ∈ es, ∃ it ∈ walk, it.path ≠ root ∧ e.Path = it.path ∧
      e.Mode = it.info.mode ∧ e.ModificationTime = it.info.mtime ∧
      (it.info.isDir = true → e.SHA256 = "") ∧
      (it.info.isDir = false → ∃ c, it.info.content = some c ∧ e.SHA256 = hash c)) ∧
    (∀ it ∈ walk, it.path ≠ root → entryValue hash it ∈ es) ∧
    (∀ walk', List.Perm walk walk' →
      (walk.map (fun it => it.path)).Nodup →
      newFileListing hash root walk' = .ok es) := by
  obtain ⟨hoks, hes⟩ := newFileListing_ok_inv hash root walk es h
  subst hes
  set F := walk.filter (fun it => it.path != root) with hF
  have hperm : List.Perm (List.insertionSort pathLe (F.map (entryValue hash)))
      (F.map (entryValue hash)) := List.perm_insertionSort pathLe _
  refine ⟨List.sorted_insertionSort pathLe _, ?_, ?_, ?_⟩
  · intro e he
    have : e ∈ F.map (entryValue hash) := hperm.mem_iff.mp he
    obtain ⟨it, hitF, rfl⟩ := List.mem_map.mp this
    have hit := List.mem_filter.mp hitF
    obtain ⟨hp, hm, hmt, hdir, hfile⟩ :=
      entryOf_ok_inv hash it _ (entryOf_eq_ok hash it (hoks it hitF))
    exact ⟨it, hit.1, by simpa using hit.2, hp, hm, hmt, hdir, hfile⟩
  · intro it hit hne
    have hitF : it ∈ F := List.mem_filter.mpr ⟨hit, by simpa using hne⟩
    exact hperm.mem_iff.mpr (List.mem_map.mpr ⟨it, hitF, rfl⟩)
  · intro walk' hpw hnodup
    have hpF : List.Perm F (walk'.filter (fun it => it.path != root)) :=
      hpw.filter _
    have hoks' : ∀ it ∈ walk'.filter (fun it => it.path != root),
        (entryOf hash it).isOk := fun it hit => hoks it (hpF.mem_iff.mpr hit)
    have hcol' := collectEntries_eq_map hash _ hoks'
    simp only [newFileListing, hcol']
    have hpmap : List.Perm ((walk'.filter (fun it => it.path != root)).map (entryValue hash))
        (F.map (entryValue hash)) := (hpF.map _).symm
    have hnF : ((F.map (entryValue hash)).map FileEntry.Path).Nodup := by
      rw [map_path_entryValue hash F hoks]
      have hsub : List.Sublist (F.map (fun it => it.path))
          (walk.map (fun it => it.path)) :=
        List.Sublist.map _ (List.filter_sublist walk)
      exact hnodup.sublist hsub
    have hsorted1 : List.Sorted pathLt
        (List.insertionSort pathLe
          ((walk'.filter (fun it => it.path != root)).map (entryValue hash))) := by
      refine sorted_pathLt_of_le _ (List.sorted_insertionSort pathLe _) ?_
      have hp2 : List.Perm
          ((List.insertionSort pathLe
            ((walk'.filter (fun it => it.path != root)).map (entryValue hash))).map
              FileEntry.Path)
          ((F.map (entryValue hash)).map FileEntry.Path) :=
        ((List.perm_insertionSort pathLe _).trans hpmap).map _
      exact hp2.nodup_iff.mpr hnF
    have hsorted2 : List.Sorted pathLt
        (List.insertionSort pathLe (F.map (entryValue hash))) := by
      refine sorted_pathLt_of_le _ (List.sorted_insertionSort pathLe _) ?_
      exact ((List.perm_insertionSort pathLe _).map _).nodup_iff.mpr hnF
    have hp3 : List.Perm
        (List.insertionSort pathLe
          ((walk'.filter (fun it => it.path != root)).map (entryValue hash)))
        (List.insertionSort pathLe (F.map (entryValue hash))) :=
      ((List.perm_insertionSort pathLe _).trans hpmap).trans
        (List.perm_insertionSort pathLe _).symm
    rw [List.eq_of_perm_of_sorted hp3 hsorted1 hsorted2]

/-- The walk used by the C8/C9 witnesses: a root, a subdirectory and two
regular files, visited out of path order. -/
def demoWalk : List WalkItem :=
  [⟨"/r", ⟨"drwxr-xr-x", "t0", true, none⟩⟩,
   ⟨"/r/y", ⟨"drwxr-xr-x", "t1", true, none⟩⟩,
   ⟨"/r/y/z.txt", ⟨"-rw-r--r--", "t2", false, some [2]⟩⟩,
   ⟨"/r/x.txt", ⟨"-rw-r--r--", "t3", false, some [1]⟩⟩]

def demoListingHash : Content → String := fun c => if c = [1] then "h1" else "h2"

example : newFileListing demoListingHash "/r" demoWalk =
    .ok [⟨"/r/x.txt", "-rw-r--r--", "t3", "h1"⟩,
         ⟨"/r/y", "drwxr-xr-x", "t1", ""⟩,
         ⟨"/r/y/z.txt", "-rw-r--r--", "t2", "h2"⟩] := by rfl

/-- Witness for C8 over `demoWalk`. -/
theorem newFileListing_sorted_root_excluded_digests_witness :
    newFileListing demoListingHash "/r" demoWalk =
      .ok [⟨"/r/x.txt", "-rw-r--r--", "t3", "h1"⟩,
           ⟨"/r/y", "drwxr-xr-x", "t1", ""⟩,
           ⟨"/r/y/z.txt", "-rw-r--r--", "t2", "h2"⟩] ∧
    (List.Sorted pathLe [⟨"/r/x.txt", "-rw-r--r--", "t3", "h1"⟩,
           ⟨"/r/y", "drwxr-xr-x", "t1", ""⟩,
           ⟨"/r/y/z.txt", "-rw-r--r--", "t2", "h2"⟩] ∧
     (∀ e ∈ [(⟨"/r/x.txt", "-rw-r--r--", "t3", "h1"⟩ : FileEntry),
           ⟨"/r/y", "drwxr-xr-x", "t1", ""⟩,
           ⟨"/r/y/z.txt", "-rw-r--r--", "t2", "h2"⟩], ∃ it ∈ demoWalk, it.path ≠ "/r" ∧
        e.Path = it.path ∧ e.Mode = it.info.mode ∧ e.ModificationTime = it.info.mtime ∧
        (it.info.isDir = true → e.SHA256 = "") ∧
        (it.info.isDir = false → ∃ c, it.info.content = some c ∧
          e.SHA256 = demoListingHash c)) ∧
     (∀ it ∈ demoWalk, it.path ≠ "/r" →
        entryValue demoListingHash it ∈ [(⟨"/r/x.txt", "-rw-r--r--", "t3", "h1"⟩ : FileEntry),
           ⟨"/r/y", "drwxr-xr-x", "t1", ""⟩,
           ⟨"/r/y/z.txt", "-rw-r--r--", "t2", "h2"⟩]) ∧
     (∀ walk', List.Perm demoWalk walk' →
        (demoWalk.map (fun it => it.path)).Nodup →
        newFileListing demoListingHash "/r" walk' =
          .ok [⟨"/r/x.txt", "-rw-r--r--", "t3", "h1"⟩,
               ⟨"/r/y", "drwxr-xr-x", "t1", ""⟩,
               ⟨"/r/y/z.txt", "-rw-r--r--", "t2", "h2"⟩])) :=
  ⟨by rfl,
    newFileListing_sorted_root_excluded_digests demoListingHash "/r" demoWalk _ (by rfl)⟩

/-- Modelled from the spec: the claim reads "each unit computes the
entry's relative path".  The root-relative path of a walked path is the
path with the root prefix and its separator removed (`filepath.Rel` for
the simple prefix case). -/
def specRelativePath (root path : String) : String :=
  if path = root then "."
  else if (root.data ++ ['/']).isPrefixOf path.data then
    String.mk (path.data.drop (root.data.length + 1))
  else path

example : specRelativePath "/r" "/r/x.txt" = "x.txt" := by decide

/-- Counterexample to C9 as stated: the produced `Path` is the full walk
path `/r/x.txt` (root prefix included), not the root-relative path
`x.txt`. -/
theorem newFileListing_path_not_relative :
    newFileListing demoListingHash "/r"
        [⟨"/r", ⟨"drwxr-xr-x", "t0", true, none⟩⟩,
         ⟨"/r/x.txt", ⟨"-rw-r--r--", "t3", false, some [1]⟩⟩] =
      .ok [⟨"/r/x.txt", "-rw-r--r--", "t3", "h1"⟩] ∧
    specRelativePath "/r" "/r/x.txt" = "x.txt" ∧
    ("/r/x.txt" : String) ≠ "x.txt" :=
  ⟨by rfl, by decide, by decide⟩

/-- Claim C9 (amended): every produced `FileEntry.Path` is the entry's
path exactly as reported by the tree walk — the root-prefixed full path,
not the path relative to the root. -/
theorem newFileListing_path_is_walk_path (hash : Content → String) (root : String)
    (walk : List WalkItem) (es : List FileEntry)
    (h : newFileListing hash root walk = .ok es) :
    (∀ e ∈ es, ∃ it ∈ walk, it.path ≠ root ∧ e.Path = it.path) ∧
    (∀ it ∈ walk, it.path ≠ root → ∃ e ∈ es, e.Path = it.path) := by
  obtain ⟨hoks, hes⟩ := newFileListing_ok_inv hash root walk es h
  subst hes
  have hperm : List.Perm
      (List.insertionSort pathLe
        ((walk.filter (fun it => it.path != root)).map (entryValue hash)))
      ((walk.filter (fun it => it.path != root)).map (entryValue hash)) :=
    List.perm_insertionSort pathLe _
  constructor
  · intro e he
    obtain ⟨it, hitF, rfl⟩ := List.mem_map.mp (hperm.mem_iff.mp he)
    have hit := List.mem_filter.mp hitF
    exact ⟨it, hit.1, by simpa using hit.2,
      (entryOf_ok_inv hash it _ (entryOf_eq_ok hash it (hoks it hitF))).1⟩
  · intro it hit hne
    have hitF : it ∈ walk.filter (fun it => it.path != root) :=
      List.mem_filter.mpr ⟨hit, by simpa using hne⟩
    refine ⟨entryValue hash it, hperm.mem_iff.mpr (List.mem_map.mpr ⟨it, hitF, rfl⟩), ?_⟩
    exact (entryOf_ok_inv hash it _ (entryOf_eq_ok hash it (hoks it hitF))).1

/-- Witness for the amended C9 over `demoWalk`: each output path is the
walk path. -/
theorem newFileListing_path_is_walk_path_witness :
    newFileListing demoListingHash "/r" demoWalk =
      .ok [⟨"/r/x.txt", "-rw-r--r--", "t3", "h1"⟩,
           ⟨"/r/y", "drwxr-xr-x", "t1", ""⟩,
           ⟨"/r/y/z.txt", "-rw-r--r--", "t2", "h2"⟩] ∧
    ((∀ e ∈ [(⟨"/r/x.txt", "-rw-r--r--", "t3", "h1"⟩ : FileEntry),
           ⟨"/r/y", "drwxr-xr-x", "t1", ""⟩,
           ⟨"/r/y/z.txt", "-rw-r--r--", "t2", "h2"⟩],
        ∃ it ∈ demoWalk, it.path ≠ "/r" ∧ e.Path = it.path) ∧
     (∀ it ∈ demoWalk, it.path ≠ "/r" →
        ∃ e ∈ [(⟨"/r/x.txt", "-rw-r--r--", "t3", "h1"⟩ : FileEntry),
           ⟨"/r/y", "drwxr-xr-x", "t1", ""⟩,
           ⟨"/r/y/z.txt", "-rw-r--r--", "t2", "h2"⟩], e.Path = it.path)) :=
  ⟨by rfl, newFileListing_path_is_walk_path demoListingHash "/r" demoWalk _ (by rfl)⟩

end sherpa

end spec2proof
